import Mathlib

/-!
# Verification of the DestVI deconvolution core (scvi-tools)

Shallow embedding, in exact real arithmetic, of:

* `scvi/external/destvi/_module.py` — class `HSTDeconv`: the deconvolution
  module (`generative`, `loss`, `get_proportions`, `get_gamma`,
  `get_ct_specific_expression`), its parameter store and frozen decoder;
* `scvi/autotune/_autotune.py` — class `Autotune`: the per-key
  config-splitting loop of `_scvi_trainable` and `run`.

Tensors are total functions on `Fin` index types; minibatch tensors of shape
`[B, n_genes]` become `Fin B → Fin nGenes → ℝ`.  Neural networks whose weights
live outside this repository (the frozen `FCLayers` decoder composed with the
softplus projection `px_decoder`, and the two amortization encoders) are opaque
function-valued fields of the module state: every claim below is about how the
module wires them together, not about their internals.  Likewise the external
`NegativeBinomial.log_prob` kernel is an explicit function argument `nb` of the
loss; the Gaussian log-density used for the priors is spelled out concretely.
-/

open Finset

noncomputable section

/-- softplus(t) = log(1 + exp t), the non-linearity
`torch.nn.functional.softplus` used throughout `HSTDeconv`. -/
def softplus (t : ℝ) : ℝ := Real.log (1 + Real.exp t)

/-- log1p(t) = log(1 + t), the transform `torch.log(1 + x)` applied to counts
before they are fed to amortization encoders. -/
def log1p (t : ℝ) : ℝ := Real.log (1 + t)

/-- Log-density of a univariate Normal with mean `μ` and standard deviation
`σ`, as computed by `torch.distributions.Normal(μ, σ).log_prob x`. -/
def normalLogPdf (μ σ x : ℝ) : ℝ :=
  -((x - μ) ^ 2) / (2 * σ ^ 2) - Real.log σ - Real.log (Real.sqrt (2 * Real.pi))

/-- The four-valued `amortization` flag of `HSTDeconv.__init__`
(`"none" | "latent" | "proportion" | "both"`). -/
inductive Amortization where
  | none
  | latent
  | proportion
  | both
deriving DecidableEq, Repr

/-- `amortization in ["both", "latent"]` — the membership test guarding the
amortized-gamma branches. -/
def Amortization.latentAmortized : Amortization → Bool
  | .both => true
  | .latent => true
  | _ => false

/-- `amortization in ["both", "proportion"]` — the membership test guarding the
amortized-proportion branches. -/
def Amortization.proportionAmortized : Amortization → Bool
  | .both => true
  | .proportion => true
  | _ => false

/-- The optional VAMP prior bank registered in `HSTDeconv.__init__` when
`mean_vprior is not None`: `p` pseudo-points with per-(label, pseudo-point)
mean and variance over the latent axis (shapes `[n_labels, p, n_latent]`). -/
structure VampBank (nLabels nLatent : ℕ) where
  p : ℕ
  mean_vprior : Fin nLabels → Fin p → Fin nLatent → ℝ
  var_vprior : Fin nLabels → Fin p → Fin nLatent → ℝ

/-- State of one `HSTDeconv` module: the frozen reference decoder (as the
opaque composite `px_decoder ∘ decoder`, one latent vector and one cell-type
label in, one non-negative gene profile out), the fixed dispersion buffer
`px_o`, the trainable point-estimate tensors `V` (`[n_labels+1, n_spots]`) and
`gamma` (`[n_latent, n_labels, n_spots]`), the global per-gene parameters
`eta` and `beta`, the two amortization encoders (`gamma_encoder` maps a gene
vector to `n_latent * n_labels` reals, `V_encoder` to `n_labels + 1` reals),
the amortization mode and the optional VAMP bank. -/
structure HSTDeconv (nSpots nLabels nLatent nGenes : ℕ) where
  decoderPx : (Fin nLatent → ℝ) → Fin nLabels → Fin nGenes → ℝ
  px_o : Fin nGenes → ℝ
  V : Fin (nLabels + 1) → Fin nSpots → ℝ
  gamma : Fin nLatent → Fin nLabels → Fin nSpots → ℝ
  eta : Fin nGenes → ℝ
  beta : Fin nGenes → ℝ
  gamma_encoder : (Fin nGenes → ℝ) → Fin (nLatent * nLabels) → ℝ
  V_encoder : (Fin nGenes → ℝ) → Fin (nLabels + 1) → ℝ
  amortization : Amortization
  vprior : Option (VampBank nLabels nLatent)

variable {nSpots nLabels nLatent nGenes B : ℕ}

/-- Index arithmetic for the row-major flattening used by
`reshape((n_latent, n_labels, -1))` and its inverse: `d * nLabels + l` is a
valid flat index when `d < nLatent` and `l < nLabels`. -/
theorem flatIdx_lt (d : Fin nLatent) (l : Fin nLabels) :
    (d : ℕ) * nLabels + (l : ℕ) < nLatent * nLabels := by
  calc (d : ℕ) * nLabels + (l : ℕ)
      < (d : ℕ) * nLabels + nLabels := by
        exact Nat.add_lt_add_left l.isLt _
    _ = ((d : ℕ) + 1) * nLabels := by ring
    _ ≤ nLatent * nLabels := Nat.mul_le_mul_right _ (Nat.succ_le_of_lt d.isLt)

/-- The row-major pairing `(d, l) ↦ d * nLabels + l` as a `Fin` map. -/
def flatIdx (d : Fin nLatent) (l : Fin nLabels) : Fin (nLatent * nLabels) :=
  ⟨(d : ℕ) * nLabels + (l : ℕ), flatIdx_lt d l⟩

end

/-! ## Autotune config splitting (`scvi/autotune/_autotune.py`)

`_scvi_trainable` (lines 69–79) and `run` (lines 132–141) both walk the merged
config and route each key through three membership tests.  In the source all
three tests read `if key in self.trainer_hyperparams`, `elif key in
self.trainer_hyperparams`, `elif key in self.trainer_hyperparams`.  Keys are
strings; values are embedded as integers (their type plays no role).
The three hyperparameter dicts enter only through their key lists. -/

/-- One iteration of the key-routing loop shared by `Autotune._scvi_trainable`
and `Autotune.run`: given the accumulated `(model_config, trainer_config,
plan_config)` and the next `(key, value)` pair, append it to the dict selected
by the chain of membership tests — all three of which test
`trainer_hyperparams`, exactly as in the source. -/
def splitStep (trainer_hyperparams : List String)
    (acc : List (String × ℤ) × List (String × ℤ) × List (String × ℤ))
    (kv : String × ℤ) :
    List (String × ℤ) × List (String × ℤ) × List (String × ℤ) :=
  if kv.1 ∈ trainer_hyperparams then (acc.1 ++ [kv], acc.2.1, acc.2.2)
  else if kv.1 ∈ trainer_hyperparams then (acc.1, acc.2.1 ++ [kv], acc.2.2)
  else if kv.1 ∈ trainer_hyperparams then (acc.1, acc.2.1, acc.2.2 ++ [kv])
  else acc

/-- The config-splitting loop of `Autotune._scvi_trainable` (lines 70–79):
builds `model_config`, `trainer_config`, `plan_config` from the trial's merged
`config`. -/
def scvi_trainable_split (trainer_hyperparams : List String)
    (config : List (String × ℤ)) :
    List (String × ℤ) × List (String × ℤ) × List (String × ℤ) :=
  config.foldl (splitStep trainer_hyperparams) ([], [], [])

/-- The config-splitting loop of `Autotune.run` (lines 132–141): rebuilds the
three configs from `best_config`.  Textually identical logic to
`scvi_trainable_split`. -/
def run_split (trainer_hyperparams : List String)
    (best_config : List (String × ℤ)) :
    List (String × ℤ) × List (String × ℤ) × List (String × ℤ) :=
  best_config.foldl (splitStep trainer_hyperparams) ([], [], [])

/-- Accumulator-generalized form of the splitting loop: only the first
component ever grows, by exactly the keys belonging to
`trainer_hyperparams`. -/
theorem foldl_splitStep (trainer_hyperparams : List String)
    (config : List (String × ℤ))
    (acc : List (String × ℤ) × List (String × ℤ) × List (String × ℤ)) :
    config.foldl (splitStep trainer_hyperparams) acc =
      (acc.1 ++ config.filter (fun kv => decide (kv.1 ∈ trainer_hyperparams)),
        acc.2.1, acc.2.2) := by
  induction config generalizing acc with
  | nil => simp
  | cons kv rest ih =>
    by_cases h : kv.1 ∈ trainer_hyperparams
    · simp [splitStep, h, ih, List.filter_cons]
    · simp [splitStep, h, ih, List.filter_cons]

/-- **C9.** In both config-splitting sites of the hyperparameter-search
wrapper, every key of the merged config is routed to `model_config` if and
only if it belongs to `trainer_hyperparams`, and `trainer_config` and
`plan_config` always come out empty: the three branches all test the same
dict, so keys are not partitioned by the dict they originated from. -/
theorem autotune_split_all_branches_test_trainer
    (trainer_hyperparams : List String) (config : List (String × ℤ)) :
    scvi_trainable_split trainer_hyperparams config =
      (config.filter (fun kv => decide (kv.1 ∈ trainer_hyperparams)), [], []) ∧
    run_split trainer_hyperparams config =
      (config.filter (fun kv => decide (kv.1 ∈ trainer_hyperparams)), [], []) ∧
    (∀ kv : String × ℤ,
      kv ∈ (scvi_trainable_split trainer_hyperparams config).1 ↔
        kv ∈ config ∧ kv.1 ∈ trainer_hyperparams) := by
  refine ⟨?_, ?_, ?_⟩
  · rw [scvi_trainable_split, foldl_splitStep]; simp
  · rw [run_split, foldl_splitStep]; simp
  · intro kv
    rw [scvi_trainable_split, foldl_splitStep]
    simp [List.mem_filter]

/-! ## The proportions accessor (`HSTDeconv.get_proportions`, lines 116–132)

The source computes an unnormalized matrix `res` (amortized branch:
`softplus(self.V_encoder(x))`, applied to the *raw* argument `x`; point branch:
`softplus(self.V).T`), optionally drops the last ("dummy"/noise) column, and
divides each row by its sum.  The two branches and the two `keep_noise`
settings have different result shapes, so each is a named definition. -/

noncomputable section

variable {nSpots nLabels nLatent nGenes B : ℕ}

/-- `res.sum(axis=1)` — per-row sum of a matrix. -/
def rowSum {R C : ℕ} (res : Fin R → Fin C → ℝ) (i : Fin R) : ℝ := ∑ j, res i j

/-- `res = res / res.sum(axis=1).reshape(-1, 1)` — the unconditional row
normalization of `get_proportions` (line 131). -/
def rowNormalize {R C : ℕ} (res : Fin R → Fin C → ℝ) : Fin R → Fin C → ℝ :=
  fun i j => res i j / rowSum res i

/-- `res = res[:, :-1]` — dropping the dummy (noise) cell-type column
(line 129, taken when `keep_noise` is false). -/
def dropNoiseColumn {R L : ℕ} (res : Fin R → Fin (L + 1) → ℝ) :
    Fin R → Fin L → ℝ :=
  fun i j => res i (Fin.castSucc j)

/-- The row normalization wrapped in an error monad.  The source performs the
division unconditionally — there is no `raise` and no zero-sum check on any
path of `get_proportions` — so the embedded step always returns `Except.ok`.
The explicit `Except` type records that absence of a raising branch. -/
def rowNormalizeE {R C : ℕ} (res : Fin R → Fin C → ℝ) :
    Except String (Fin R → Fin C → ℝ) :=
  Except.ok (rowNormalize res)

/-- Unnormalized proportions, amortized branch (line 122):
`softplus(self.V_encoder(x))`.  Note the encoder is applied to the raw
argument `x`, with no `log1p` transform. -/
def proportionsRes_amortized (st : HSTDeconv nSpots nLabels nLatent nGenes)
    (x : Fin B → Fin nGenes → ℝ) : Fin B → Fin (nLabels + 1) → ℝ :=
  fun m k => softplus (st.V_encoder (x m) k)

/-- Unnormalized proportions, point-estimate branch (lines 124–126):
`softplus(self.V).T`, one row per spot. -/
def proportionsRes_point (st : HSTDeconv nSpots nLabels nLatent nGenes) :
    Fin nSpots → Fin (nLabels + 1) → ℝ :=
  fun s k => softplus (st.V k s)

/-- `get_proportions(x, keep_noise=False)`, amortized branch: drop the noise
column, then row-normalize. -/
def get_proportions_amortized (st : HSTDeconv nSpots nLabels nLatent nGenes)
    (x : Fin B → Fin nGenes → ℝ) : Fin B → Fin nLabels → ℝ :=
  rowNormalize (dropNoiseColumn (proportionsRes_amortized st x))

/-- `get_proportions(x, keep_noise=True)`, amortized branch: row-normalize all
`n_labels + 1` columns. -/
def get_proportions_amortized_keepNoise
    (st : HSTDeconv nSpots nLabels nLatent nGenes)
    (x : Fin B → Fin nGenes → ℝ) : Fin B → Fin (nLabels + 1) → ℝ :=
  rowNormalize (proportionsRes_amortized st x)

/-- `get_proportions(keep_noise=False)`, point-estimate branch. -/
def get_proportions_point (st : HSTDeconv nSpots nLabels nLatent nGenes) :
    Fin nSpots → Fin nLabels → ℝ :=
  rowNormalize (dropNoiseColumn (proportionsRes_point st))

/-- `get_proportions(keep_noise=True)`, point-estimate branch. -/
def get_proportions_point_keepNoise
    (st : HSTDeconv nSpots nLabels nLatent nGenes) :
    Fin nSpots → Fin (nLabels + 1) → ℝ :=
  rowNormalize (proportionsRes_point st)

/-- Number of columns of the `get_proportions` result as a function of
`keep_noise` (shape `n_spots_or_batch × n_labels(+1)`). -/
def proportionsCols (nLabels : ℕ) (keep_noise : Bool) : ℕ :=
  if keep_noise then nLabels + 1 else nLabels

/-- The all-zero 1×1 matrix, a degenerate normalization input. -/
def zeroRowMat : Fin 1 → Fin 1 → ℝ := fun _ _ => 0

/-! ## The gamma accessor (`HSTDeconv.get_gamma`, lines 134–150) -/

/-- `get_gamma(x)`, amortized branch (lines 147–148):
`transpose(self.gamma_encoder(x), 0, 1).reshape((n_latent, n_labels, -1))`.
Row-major reshape puts `(d, l, m)` at flat row `d * n_labels + l` of the
transposed encoder output, i.e. entry `d * n_labels + l` of the encoder output
on spot `m`.  The encoder is applied to the *raw* argument `x`. -/
def get_gamma_amortized (st : HSTDeconv nSpots nLabels nLatent nGenes)
    (x : Fin B → Fin nGenes → ℝ) : Fin nLatent → Fin nLabels → Fin B → ℝ :=
  fun d l m => st.gamma_encoder (x m) (flatIdx d l)

/-- `get_gamma()`, point-estimate branch (line 150): the stored tensor. -/
def get_gamma_point (st : HSTDeconv nSpots nLabels nLatent nGenes) :
    Fin nLatent → Fin nLabels → Fin nSpots → ℝ :=
  st.gamma

/-- The behavior the spec prescribes for the amortized gamma accessor, written
from the spec's words ("amortized encoders always receive `log1p(x)`, never
raw counts"): identical to `get_gamma_amortized` except that the encoder
receives `log1p(x)`. -/
def get_gamma_amortized_specLog1p (st : HSTDeconv nSpots nLabels nLatent nGenes)
    (x : Fin B → Fin nGenes → ℝ) : Fin nLatent → Fin nLabels → Fin B → ℝ :=
  fun d l m => st.gamma_encoder (fun g => log1p (x m g)) (flatIdx d l)

/-- A concrete 1-spot, 1-label, 1-latent, 1-gene module in latent-amortized
mode whose latent encoder reads off the first coordinate of its input. -/
def exampleModule : HSTDeconv 1 1 1 1 where
  decoderPx := fun _ _ _ => 0
  px_o := fun _ => 0
  V := fun _ _ => 0
  gamma := fun _ _ _ => 0
  eta := fun _ => 0
  beta := fun _ => 0
  gamma_encoder := fun v _ => v 0
  V_encoder := fun _ _ => 0
  amortization := .latent
  vprior := none

end

/-- softplus is strictly positive on all of ℝ: `softplus t = log(1 + exp t)`
and `1 + exp t > 1`. -/
theorem softplus_pos (t : ℝ) : 0 < softplus t := by
  have h : (1 : ℝ) < 1 + Real.exp t := by linarith [Real.exp_pos t]
  exact Real.log_pos h

/-- A row of strictly positive entries with at least one column has strictly
positive `rowSum`. -/
theorem rowSum_pos {R C : ℕ} (hC : 0 < C) (res : Fin R → Fin C → ℝ)
    (i : Fin R) (h : ∀ j, 0 < res i j) : 0 < rowSum res i := by
  have : (Finset.univ : Finset (Fin C)).Nonempty := ⟨⟨0, hC⟩, Finset.mem_univ _⟩
  exact Finset.sum_pos (fun j _ => h j) this

/-- Rows of `rowNormalize res` sum to 1 whenever the corresponding row sum of
`res` is nonzero. -/
theorem rowNormalize_sum_eq_one {R C : ℕ} (res : Fin R → Fin C → ℝ)
    (i : Fin R) (h : rowSum res i ≠ 0) :
    ∑ j, rowNormalize res i j = 1 := by
  unfold rowNormalize
  rw [← Finset.sum_div]
  exact div_self h

/-- Entrywise-positive rows normalize to non-negative entries summing to 1. -/
theorem rowNormalize_pos_entries {R C : ℕ} (hC : 0 < C)
    (res : Fin R → Fin C → ℝ) (hpos : ∀ i j, 0 < res i j) :
    (∀ i j, 0 ≤ rowNormalize res i j) ∧
    (∀ i, ∑ j, rowNormalize res i j = 1) := by
  constructor
  · intro i j
    exact div_nonneg (hpos i j).le (rowSum_pos hC res i (hpos i)).le
  · intro i
    exact rowNormalize_sum_eq_one res i (ne_of_gt (rowSum_pos hC res i (hpos i)))

/-- **C4.** For both the amortized and the point-estimate branch of
`get_proportions` with `keep_noise=False`, every entry of the result is
non-negative and every row sums to exactly 1 (exact arithmetic), provided the
model has at least one cell type. -/
theorem get_proportions_nonneg_rows_sum_one
    {nSpots nLabels nLatent nGenes B : ℕ} (hL : 0 < nLabels)
    (st : HSTDeconv nSpots nLabels nLatent nGenes)
    (x : Fin B → Fin nGenes → ℝ) :
    ((∀ m j, 0 ≤ get_proportions_amortized st x m j) ∧
     (∀ m, ∑ j, get_proportions_amortized st x m j = 1)) ∧
    ((∀ s j, 0 ≤ get_proportions_point st s j) ∧
     (∀ s, ∑ j, get_proportions_point st s j = 1)) := by
  constructor
  · exact rowNormalize_pos_entries hL _ (fun i j => softplus_pos _)
  · exact rowNormalize_pos_entries hL _ (fun i j => softplus_pos _)

/-- Witness for C4 at a concrete module (`exampleModule`, constant input 1):
the hypothesis `0 < nLabels` holds at `nLabels = 1` and the normalized row of
the amortized branch sums to 1. -/
theorem get_proportions_nonneg_rows_sum_one_witness :
    (0 < 1) ∧
    (∀ m, ∑ j,
      get_proportions_amortized exampleModule
        (fun _ _ => (1 : ℝ) : Fin 1 → Fin 1 → ℝ) m j = 1) :=
  ⟨Nat.one_pos,
    ((get_proportions_nonneg_rows_sum_one Nat.one_pos exampleModule
      (fun _ _ => (1 : ℝ) : Fin 1 → Fin 1 → ℝ)).1).2⟩

/-- Dropping the last column of a row-normalized positive matrix and
normalizing again agrees with normalizing the dropped matrix directly. -/
theorem rowNormalize_drop_renormalize {R L : ℕ} (hL : 0 < L)
    (res : Fin R → Fin (L + 1) → ℝ) (hpos : ∀ i k, 0 < res i k)
    (i : Fin R) (j : Fin L) :
    rowNormalize (dropNoiseColumn (rowNormalize res)) i j =
      rowNormalize (dropNoiseColumn res) i j := by
  have hS : 0 < rowSum res i := rowSum_pos (Nat.succ_pos L) res i (hpos i)
  have hT : 0 < rowSum (dropNoiseColumn res) i :=
    rowSum_pos hL _ i (fun j => hpos i _)
  have hS' : rowSum res i ≠ 0 := ne_of_gt hS
  have hT' : (∑ j' : Fin L, res i (Fin.castSucc j')) ≠ 0 := by
    have h := hT
    unfold rowSum dropNoiseColumn at h
    exact ne_of_gt h
  have hS2 : (∑ k : Fin (L + 1), res i k) ≠ 0 := hS'
  simp only [rowNormalize, dropNoiseColumn, rowSum]
  rw [← Finset.sum_div]
  field_simp

/-- **C5.** `get_proportions(..., keep_noise=True)` has exactly one more
column than `keep_noise=False`, and dropping that last (noise) column from the
`keep_noise=True` result and renormalizing its rows reproduces the
`keep_noise=False` result exactly — in both the amortized and the
point-estimate branch. -/
theorem get_proportions_keepNoise_drop_renormalize
    {nSpots nLabels nLatent nGenes B : ℕ} (hL : 0 < nLabels)
    (st : HSTDeconv nSpots nLabels nLatent nGenes)
    (x : Fin B → Fin nGenes → ℝ) :
    proportionsCols nLabels true = proportionsCols nLabels false + 1 ∧
    (∀ m j, rowNormalize (dropNoiseColumn
        (get_proportions_amortized_keepNoise st x)) m j =
      get_proportions_amortized st x m j) ∧
    (∀ s j, rowNormalize (dropNoiseColumn
        (get_proportions_point_keepNoise st)) s j =
      get_proportions_point st s j) := by
  refine ⟨rfl, ?_, ?_⟩
  · intro m j
    exact rowNormalize_drop_renormalize hL _ (fun i k => softplus_pos _) m j
  · intro s j
    exact rowNormalize_drop_renormalize hL _ (fun i k => softplus_pos _) s j

/-- Witness for C5 at `exampleModule` with constant input 1. -/
theorem get_proportions_keepNoise_drop_renormalize_witness :
    (0 < 1) ∧
    (∀ m j, rowNormalize (dropNoiseColumn
        (get_proportions_amortized_keepNoise exampleModule
          (fun _ _ => (1 : ℝ) : Fin 1 → Fin 1 → ℝ))) m j =
      get_proportions_amortized exampleModule
        (fun _ _ => (1 : ℝ) : Fin 1 → Fin 1 → ℝ) m j) :=
  ⟨Nat.one_pos,
    (get_proportions_keepNoise_drop_renormalize Nat.one_pos exampleModule
      (fun _ _ => (1 : ℝ) : Fin 1 → Fin 1 → ℝ)).2.1⟩

/-- **C6 (counterexample).** On an all-zero row the normalization step of
`get_proportions` does not raise: it divides unconditionally and returns a
junk row (the embedding's analogue of silent `NaN`/`Inf`), here the all-zero
row, wrapped in `Except.ok`. -/
theorem rowNormalizeE_zero_row_no_error :
    rowSum zeroRowMat 0 = 0 ∧ rowNormalizeE zeroRowMat = Except.ok zeroRowMat := by
  constructor
  · simp [rowSum, zeroRowMat]
  · unfold rowNormalizeE
    congr 1
    funext i j
    simp [rowNormalize, zeroRowMat]

/-- **C6 (amended).** The normalization step of `get_proportions` never
raises on any input: it always returns `Except.ok`, and on a row with zero sum
it silently yields the junk value 0 in every entry (the exact-arithmetic
analogue of the `NaN` row a float run would produce) rather than an error. -/
theorem rowNormalizeE_never_raises {R C : ℕ} (res : Fin R → Fin C → ℝ)
    (i : Fin R) :
    (rowNormalizeE res).isOk = true ∧
    (rowSum res i = 0 → ∀ j, rowNormalize res i j = 0) := by
  refine ⟨rfl, ?_⟩
  intro h j
  simp [rowNormalize, h]

/-- Witness for the amended C6 at the all-zero 1×1 matrix: no error is
raised, and the zero-sum row normalizes to the junk value 0. -/
theorem rowNormalizeE_never_raises_witness :
    (rowNormalizeE zeroRowMat).isOk = true ∧ rowNormalize zeroRowMat 0 0 = 0 :=
  ⟨(rowNormalizeE_never_raises zeroRowMat 0).1,
    (rowNormalizeE_never_raises zeroRowMat 0).2 (by simp [rowSum, zeroRowMat]) 0⟩

/-- **C10.** In exact real arithmetic every denominator used by the row
normalization of `get_proportions` is strictly positive — each retained entry
is a softplus value — for both amortization branches and both `keep_noise`
settings (the `keep_noise=False` cases need at least one cell type), so the
division is never a division by zero. -/
theorem proportions_denominator_pos
    {nSpots nLabels nLatent nGenes B : ℕ} (hL : 0 < nLabels)
    (st : HSTDeconv nSpots nLabels nLatent nGenes)
    (x : Fin B → Fin nGenes → ℝ) :
    (∀ m, 0 < rowSum (dropNoiseColumn (proportionsRes_amortized st x)) m) ∧
    (∀ m, 0 < rowSum (proportionsRes_amortized st x) m) ∧
    (∀ s, 0 < rowSum (dropNoiseColumn (proportionsRes_point st)) s) ∧
    (∀ s, 0 < rowSum (proportionsRes_point st) s) ∧
    (∀ m, rowSum (dropNoiseColumn (proportionsRes_amortized st x)) m ≠ 0) ∧
    (∀ s, rowSum (dropNoiseColumn (proportionsRes_point st)) s ≠ 0) := by
  have h1 : ∀ m, 0 < rowSum (dropNoiseColumn (proportionsRes_amortized st x)) m :=
    fun m => rowSum_pos hL _ m (fun j => softplus_pos _)
  have h3 : ∀ s, 0 < rowSum (dropNoiseColumn (proportionsRes_point st)) s :=
    fun s => rowSum_pos hL _ s (fun j => softplus_pos _)
  exact ⟨h1,
    fun m => rowSum_pos (Nat.succ_pos nLabels) _ m (fun j => softplus_pos _),
    h3,
    fun s => rowSum_pos (Nat.succ_pos nLabels) _ s (fun j => softplus_pos _),
    fun m => ne_of_gt (h1 m), fun s => ne_of_gt (h3 s)⟩

/-- Witness for C10 at `exampleModule` with constant input 1. -/
theorem proportions_denominator_pos_witness :
    (0 < 1) ∧
    (∀ m, 0 < rowSum (dropNoiseColumn (proportionsRes_amortized exampleModule
      (fun _ _ => (1 : ℝ) : Fin 1 → Fin 1 → ℝ))) m) :=
  ⟨Nat.one_pos,
    (proportions_denominator_pos Nat.one_pos exampleModule
      (fun _ _ => (1 : ℝ) : Fin 1 → Fin 1 → ℝ)).1⟩

/-- **C3.** The amortized branch of `get_gamma` feeds the *raw* input to the
latent encoder: on `exampleModule` (whose encoder reads off its input's first
coordinate) with constant input 1, the source computation returns 1, while the
spec-prescribed computation (encoder applied to `log1p(x)`) returns
`log 2 ≠ 1`.  The generative step, by contrast, transforms its input with
`log(1 + x)` before invoking the same encoder. -/
theorem get_gamma_amortized_receives_raw_counts :
    get_gamma_amortized exampleModule
      (fun _ _ => (1 : ℝ) : Fin 1 → Fin 1 → ℝ) 0 0 0 = 1 ∧
    get_gamma_amortized_specLog1p exampleModule
      (fun _ _ => (1 : ℝ) : Fin 1 → Fin 1 → ℝ) 0 0 0 = Real.log 2 ∧
    Real.log 2 ≠ 1 := by
  refine ⟨?_, ?_, ?_⟩
  · simp [get_gamma_amortized, exampleModule]
  · simp [get_gamma_amortized_specLog1p, exampleModule, log1p]
    norm_num
  · intro h
    have hlt := Real.log_two_lt_d9
    rw [h] at hlt
    norm_num at hlt

/-! ## The generative step (`HSTDeconv.generative`, lines 198–236)

`generative` computes the library size, applies `log(1 + x)` before any
encoder call, fetches `gamma` and `v` per the amortization mode, decodes all
(spot, cell type) pairs through the frozen decoder by flattening
`[B, n_labels, n_latent]` into `[B * n_labels, n_latent]` rows paired with a
tiled label vector, reshapes back, scales by `softplus(beta)`, concatenates
the `softplus(eta)` noise profile as component `n_labels`, and mixes. -/

noncomputable section

variable {nSpots nLabels nLatent nGenes B : ℕ}

/-- `library = torch.sum(x, dim=1, keepdim=True)` (line 202). -/
def librarySize (x : Fin B → Fin nGenes → ℝ) (m : Fin B) : ℝ := ∑ g, x m g

/-- `gamma_ind` (lines 209–212): amortized branch feeds `log(1 + x)` to
`gamma_encoder` and reshapes `[B, n_latent * n_labels]` row-major to
`[n_latent, n_labels, B]`; point branch indexes the stored tensor by
`ind_x`. -/
def gammaInd (st : HSTDeconv nSpots nLabels nLatent nGenes)
    (x : Fin B → Fin nGenes → ℝ) (ind_x : Fin B → Fin nSpots) :
    Fin nLatent → Fin nLabels → Fin B → ℝ :=
  if st.amortization.latentAmortized then
    fun d l m => st.gamma_encoder (fun g => log1p (x m g)) (flatIdx d l)
  else
    fun d l m => st.gamma d l (ind_x m)

/-- `v_ind` (lines 214–218): amortized branch feeds `log(1 + x)` to
`V_encoder`; point branch indexes `V` by `ind_x` and transposes; both are then
passed through softplus. -/
def vInd (st : HSTDeconv nSpots nLabels nLatent nGenes)
    (x : Fin B → Fin nGenes → ℝ) (ind_x : Fin B → Fin nSpots) :
    Fin B → Fin (nLabels + 1) → ℝ :=
  if st.amortization.proportionAmortized then
    fun m k => softplus (st.V_encoder (fun g => log1p (x m g)) k)
  else
    fun m k => softplus (st.V k (ind_x m))

/-- `i / nLabels < B` for a flat index `i < B * nLabels` — the first
coordinate of the row-major unflattening. -/
theorem unflat_fst_lt (i : Fin (B * nLabels)) : (i : ℕ) / nLabels < B := by
  have h : (i : ℕ) < nLabels * B :=
    lt_of_lt_of_le i.isLt (Nat.le_of_eq (Nat.mul_comm B nLabels))
  exact Nat.div_lt_of_lt_mul h

/-- `i % nLabels < nLabels` for a flat index `i < B * nLabels`. -/
theorem unflat_snd_lt (i : Fin (B * nLabels)) : (i : ℕ) % nLabels < nLabels := by
  have hpos : 0 < nLabels := by
    rcases Nat.eq_zero_or_pos nLabels with h | h
    · exact absurd i.isLt (by simp [h])
    · exact h
  exact Nat.mod_lt _ hpos

/-- Spot coordinate of a flat `[B * n_labels]` row (row-major). -/
def unflatRow (i : Fin (B * nLabels)) : Fin B :=
  ⟨(i : ℕ) / nLabels, unflat_fst_lt i⟩

/-- Label coordinate of a flat `[B * n_labels]` row (row-major). -/
def unflatLabel (i : Fin (B * nLabels)) : Fin nLabels :=
  ⟨(i : ℕ) % nLabels, unflat_snd_lt i⟩

/-- `gamma_reshape = torch.transpose(gamma_ind, 2, 0).reshape((-1, n_latent))`
(lines 221–222): flat row `i` holds the latent vector of spot `i / n_labels`,
label `i % n_labels`. -/
def gammaReshape (st : HSTDeconv nSpots nLabels nLatent nGenes)
    (x : Fin B → Fin nGenes → ℝ) (ind_x : Fin B → Fin nSpots) :
    Fin (B * nLabels) → Fin nLatent → ℝ :=
  fun i d => gammaInd st x ind_x d (unflatLabel i) (unflatRow i)

/-- `enum_label = torch.arange(0, n_labels).repeat(M).view((-1, 1))`
(line 223): flat row `i` carries label `i % n_labels`. -/
def enumLabel (i : Fin (B * nLabels)) : Fin nLabels := unflatLabel i

/-- `h = decoder(gamma_reshape, enum_label)`;
`px_rate = px_decoder(h).reshape((M, n_labels, -1))` (lines 224–225): the
decoded per-(spot, label) gene profiles, computed through the flat batch and
reshaped back row-major. -/
def pxRateDecoded (st : HSTDeconv nSpots nLabels nLatent nGenes)
    (x : Fin B → Fin nGenes → ℝ) (ind_x : Fin B → Fin nSpots) :
    Fin B → Fin nLabels → Fin nGenes → ℝ :=
  fun m l g =>
    st.decoderPx (gammaReshape st x ind_x (flatIdx m l)) (enumLabel (flatIdx m l)) g

/-- `r_hat = torch.cat([beta.unsqueeze(0).unsqueeze(1) * px_rate, eps], dim=1)`
(lines 228–231): components `0, …, n_labels - 1` are the decoded profiles
scaled by `softplus(beta)`; component `n_labels` is the dummy noise profile
`softplus(eta)`. -/
def rHat (st : HSTDeconv nSpots nLabels nLatent nGenes)
    (x : Fin B → Fin nGenes → ℝ) (ind_x : Fin B → Fin nSpots) :
    Fin B → Fin (nLabels + 1) → Fin nGenes → ℝ :=
  fun m k g =>
    if h : (k : ℕ) < nLabels then
      softplus (st.beta g) * pxRateDecoded st x ind_x m ⟨(k : ℕ), h⟩ g
    else softplus (st.eta g)

/-- The dict returned by `generative` (line 236): dispersion buffer, final
rate, mixture scale, the latent code actually used (already transposed to
`[B, n_labels, n_latent]`), and the softplus-transformed mixture weights. -/
structure GenOut (B nLabels nLatent nGenes : ℕ) where
  px_o : Fin nGenes → ℝ
  px_rate : Fin B → Fin nGenes → ℝ
  px_scale : Fin B → Fin nGenes → ℝ
  gamma : Fin B → Fin nLabels → Fin nLatent → ℝ
  v : Fin B → Fin (nLabels + 1) → ℝ

/-- `HSTDeconv.generative` (lines 198–236):
`px_scale = torch.sum(v_ind.unsqueeze(2) * r_hat, dim=1)` (line 233) and
`px_rate = library * px_scale` (line 234). -/
def generative (st : HSTDeconv nSpots nLabels nLatent nGenes)
    (x : Fin B → Fin nGenes → ℝ) (ind_x : Fin B → Fin nSpots) :
    GenOut B nLabels nLatent nGenes where
  px_o := st.px_o
  px_scale := fun m g => ∑ k, vInd st x ind_x m k * rHat st x ind_x m k g
  px_rate := fun m g =>
    librarySize x m * ∑ k, vInd st x ind_x m k * rHat st x ind_x m k g
  gamma := fun m l d => gammaInd st x ind_x d l m
  v := vInd st x ind_x

end

/-- Round trip of the row-major flattening: decoding flat row
`m * n_labels + l` recovers exactly the latent slice and label of spot `m`,
cell type `l`. -/
theorem pxRateDecoded_eq_direct {nSpots nLabels nLatent nGenes B : ℕ}
    (st : HSTDeconv nSpots nLabels nLatent nGenes)
    (x : Fin B → Fin nGenes → ℝ) (ind_x : Fin B → Fin nSpots)
    (m : Fin B) (l : Fin nLabels) (g : Fin nGenes) :
    pxRateDecoded st x ind_x m l g =
      st.decoderPx (fun d => gammaInd st x ind_x d l m) l g := by
  have hpos : 0 < nLabels := l.pos
  have hdiv : ((m : ℕ) * nLabels + (l : ℕ)) / nLabels = (m : ℕ) := by
    rw [mul_comm, Nat.mul_add_div hpos, Nat.div_eq_of_lt l.isLt, Nat.add_zero]
  have hmod : ((m : ℕ) * nLabels + (l : ℕ)) % nLabels = (l : ℕ) := by
    rw [mul_comm, Nat.mul_add_mod, Nat.mod_eq_of_lt l.isLt]
  have h1 : unflatRow (flatIdx m l) = m := Fin.ext (by simpa [unflatRow, flatIdx] using hdiv)
  have h2 : unflatLabel (flatIdx m l) = l := Fin.ext (by simpa [unflatLabel, flatIdx] using hmod)
  have hg : gammaReshape st x ind_x (flatIdx m l) = fun d => gammaInd st x ind_x d l m := by
    funext d
    simp only [gammaReshape]
    rw [h1, h2]
  simp only [pxRateDecoded, enumLabel]
  rw [hg, h2]

/-- **C2.** The final rate produced by `generative` is, per spot `m` and gene
`g`, the library size (row sum of the raw counts) times the weighted sum over
the `n_labels + 1` components, with the softplus-transformed mixture weights
`v` as weights; components `0, …, n_labels - 1` are the frozen decoder's
per-cell-type profiles (on the gamma actually selected by the active mode)
scaled by `softplus(beta)`, and component `n_labels` is the noise profile
`softplus(eta)`. -/
theorem generative_px_rate_mixture {nSpots nLabels nLatent nGenes B : ℕ}
    (st : HSTDeconv nSpots nLabels nLatent nGenes)
    (x : Fin B → Fin nGenes → ℝ) (ind_x : Fin B → Fin nSpots)
    (m : Fin B) (g : Fin nGenes) :
    (generative st x ind_x).px_rate m g =
      (∑ g', x m g') *
        ∑ k : Fin (nLabels + 1),
          (generative st x ind_x).v m k *
            (if h : (k : ℕ) < nLabels then
              softplus (st.beta g) *
                st.decoderPx (fun d => gammaInd st x ind_x d ⟨(k : ℕ), h⟩ m)
                  ⟨(k : ℕ), h⟩ g
             else softplus (st.eta g)) := by
  simp only [generative, librarySize]
  congr 1
  apply Finset.sum_congr rfl
  intro k _
  congr 1
  simp only [rHat]
  split
  · rw [pxRateDecoded_eq_direct]
  · rfl

/-! ## The loss (`HSTDeconv.loss`, lines 238–281)

`reconst_loss = -NegativeBinomial(px_rate, logits=px_o).log_prob(x).sum(-1)`;
the Negative-Binomial kernel is implemented outside this repository
(`scvi.distributions`), so it enters the embedding as an explicit function
argument `nb rate logits count`.  The Gaussian prior densities are concrete.
`torch.mean` over the minibatch axis is the sum over spots divided by `B`. -/

noncomputable section

variable {nSpots nLabels nLatent nGenes B : ℕ}

/-- Per-spot reconstruction term (line 251): negative log-likelihood of the
observed counts under the Negative Binomial with the final rate and the fixed
dispersion logits, summed over genes. -/
def reconstLoss (nb : ℝ → ℝ → ℝ → ℝ) (x : Fin B → Fin nGenes → ℝ)
    (out : GenOut B nLabels nLatent nGenes) (m : Fin B) : ℝ :=
  -∑ g, nb (out.px_rate m g) (out.px_o g) (x m g)

/-- Global hyperprior term (lines 254–256): negative standard-normal
log-density of `eta`, summed over genes — a single scalar. -/
def gloNegLogLikelihoodPrior (st : HSTDeconv nSpots nLabels nLatent nGenes) : ℝ :=
  -∑ g, normalLogPdf 0 1 (st.eta g)

/-- Per-spot latent-prior term (lines 260–276).  Without a VAMP bank:
negative standard-normal log-density of `gamma`, summed over the latent and
cell-type axes (`.sum(2).sum(1)`, line 265).  With a VAMP bank: per cell type,
log-sum-exp over the `p` pseudo-point Normal log-densities summed over the
latent axis, minus `log p`, summed over cell types, negated (lines 266–274). -/
def negLogLikelihoodPrior (st : HSTDeconv nSpots nLabels nLatent nGenes)
    (gamma : Fin B → Fin nLabels → Fin nLatent → ℝ) (m : Fin B) : ℝ :=
  match st.vprior with
  | Option.none => -∑ l, ∑ d, normalLogPdf 0 1 (gamma m l d)
  | Option.some bank =>
      -∑ l, (Real.log (∑ j, Real.exp (∑ d,
          normalLogPdf (bank.mean_vprior l j d)
            (Real.sqrt (bank.var_vprior l j d)) (gamma m l d)))
        - Real.log (bank.p : ℝ))

/-- The record returned by `loss` (lines 279–281): the scalar total plus the
three named components. -/
structure LossRecorder (B : ℕ) where
  loss : ℝ
  reconst_loss : Fin B → ℝ
  neg_log_likelihood_prior : Fin B → ℝ
  glo_neg_log_likelihood_prior : ℝ

/-- `HSTDeconv.loss` (line 277):
`loss = n_obs * torch.mean(reconst_loss + kl_weight * neg_log_likelihood_prior)
+ glo_neg_log_likelihood_prior`. -/
def lossHST (st : HSTDeconv nSpots nLabels nLatent nGenes)
    (nb : ℝ → ℝ → ℝ → ℝ) (x : Fin B → Fin nGenes → ℝ)
    (out : GenOut B nLabels nLatent nGenes) (kl_weight n_obs : ℝ) :
    LossRecorder B where
  loss := n_obs * ((∑ m, (reconstLoss nb x out m
      + kl_weight * negLogLikelihoodPrior st out.gamma m)) / (B : ℝ))
    + gloNegLogLikelihoodPrior st
  reconst_loss := reconstLoss nb x out
  neg_log_likelihood_prior := negLogLikelihoodPrior st out.gamma
  glo_neg_log_likelihood_prior := gloNegLogLikelihoodPrior st

/-- A concrete generative output on `exampleModule` (all-ones minibatch of one
spot), used by witnesses. -/
def exampleGenOut : GenOut 1 1 1 1 :=
  generative exampleModule (fun _ _ => 1) (fun _ => 0)

/-- The VAMP bank of the degeneration scenario: `p = 5` pseudo-points, all
with mean 0 and variance 1. -/
def exampleBank : VampBank 1 1 := ⟨5, fun _ _ _ => 0, fun _ _ _ => 1⟩

/-- `exampleModule` equipped with the degenerate `p = 5` VAMP bank. -/
def exampleVampModule : HSTDeconv 1 1 1 1 :=
  { exampleModule with vprior := Option.some exampleBank }

end

/-- **C1.** For every minibatch the total batch loss equals `n_obs` times the
minibatch mean of (per-spot reconstruction term + `kl_weight` times per-spot
latent-prior term), plus the global hyperprior term (negative standard-normal
log-density of `eta` summed over genes); subtracting the `n_obs`-scaled mean
from the total leaves exactly the hyperprior component once, unscaled by
`n_obs` or the minibatch size. -/
theorem loss_batch_formula {nSpots nLabels nLatent nGenes B : ℕ} (_hB : 0 < B)
    (st : HSTDeconv nSpots nLabels nLatent nGenes) (nb : ℝ → ℝ → ℝ → ℝ)
    (x : Fin B → Fin nGenes → ℝ) (out : GenOut B nLabels nLatent nGenes)
    (kl_weight n_obs : ℝ) :
    (lossHST st nb x out kl_weight n_obs).loss =
      n_obs * ((∑ m, ((-∑ g, nb (out.px_rate m g) (out.px_o g) (x m g))
          + kl_weight * negLogLikelihoodPrior st out.gamma m)) / (B : ℝ))
        + (-∑ g, normalLogPdf 0 1 (st.eta g)) ∧
    (lossHST st nb x out kl_weight n_obs).loss
        - n_obs * ((∑ m, ((lossHST st nb x out kl_weight n_obs).reconst_loss m
            + kl_weight *
              (lossHST st nb x out kl_weight n_obs).neg_log_likelihood_prior m))
          / (B : ℝ))
      = (lossHST st nb x out kl_weight n_obs).glo_neg_log_likelihood_prior := by
  constructor
  · rfl
  · simp only [lossHST]
    ring

/-- Witness for C1 on a one-spot minibatch over `exampleModule` with a trivial
NB kernel: the hypothesis `0 < B` holds at `B = 1`. -/
theorem loss_batch_formula_witness :
    (0 < 1) ∧
    (lossHST exampleModule (fun _ _ _ => (0 : ℝ))
        (fun _ _ => (1 : ℝ)) exampleGenOut 1 1).loss =
      1 * ((∑ m : Fin 1, ((-∑ g : Fin 1, (fun _ _ _ => (0 : ℝ))
            (exampleGenOut.px_rate m g) (exampleGenOut.px_o g)
            ((fun _ _ => (1 : ℝ)) m g))
          + 1 * negLogLikelihoodPrior exampleModule exampleGenOut.gamma m))
        / ((1 : ℕ) : ℝ))
        + (-∑ g : Fin 1, normalLogPdf 0 1 (exampleModule.eta g)) :=
  ⟨Nat.one_pos,
    (loss_batch_formula Nat.one_pos exampleModule (fun _ _ _ => (0 : ℝ))
      (fun _ _ => (1 : ℝ)) exampleGenOut 1 1).1⟩

/-- **C7.** When the supplied VAMP bank has all `p` pseudo-points at mean 0
and variance 1 (with `p > 0`), the per-spot latent-prior term computed via the
VAMP branch of `loss` coincides exactly with the term the non-VAMP branch
would compute: the log-sum-exp over `p` identical Gaussian terms collapses
against the `- log p` correction. -/
theorem vamp_unit_bank_equals_isotropic
    {nSpots nLabels nLatent nGenes B : ℕ}
    (st : HSTDeconv nSpots nLabels nLatent nGenes)
    (bank : VampBank nLabels nLatent)
    (hbank : st.vprior = Option.some bank) (hp : 0 < bank.p)
    (hmean : ∀ l j d, bank.mean_vprior l j d = 0)
    (hvar : ∀ l j d, bank.var_vprior l j d = 1)
    (gamma : Fin B → Fin nLabels → Fin nLatent → ℝ) (m : Fin B) :
    negLogLikelihoodPrior st gamma m =
      negLogLikelihoodPrior { st with vprior := Option.none } gamma m := by
  have hrhs : negLogLikelihoodPrior { st with vprior := Option.none } gamma m
      = -∑ l, ∑ d, normalLogPdf 0 1 (gamma m l d) := rfl
  have hlhs : negLogLikelihoodPrior st gamma m
      = -∑ l, (Real.log (∑ j, Real.exp (∑ d,
          normalLogPdf (bank.mean_vprior l j d)
            (Real.sqrt (bank.var_vprior l j d)) (gamma m l d)))
        - Real.log (bank.p : ℝ)) := by
    unfold negLogLikelihoodPrior
    rw [hbank]
  rw [hlhs, hrhs]
  congr 1
  apply Finset.sum_congr rfl
  intro l _
  have hinner : ∀ j : Fin bank.p,
      (∑ d, normalLogPdf (bank.mean_vprior l j d)
        (Real.sqrt (bank.var_vprior l j d)) (gamma m l d))
      = ∑ d, normalLogPdf 0 1 (gamma m l d) := by
    intro j
    apply Finset.sum_congr rfl
    intro d _
    rw [hmean, hvar, Real.sqrt_one]
  calc Real.log (∑ j, Real.exp (∑ d, normalLogPdf (bank.mean_vprior l j d)
          (Real.sqrt (bank.var_vprior l j d)) (gamma m l d)))
        - Real.log (bank.p : ℝ)
      = Real.log (∑ _j : Fin bank.p,
            Real.exp (∑ d, normalLogPdf 0 1 (gamma m l d)))
          - Real.log (bank.p : ℝ) := by
        rw [Finset.sum_congr rfl (fun j _ => by rw [hinner j])]
    _ = Real.log ((bank.p : ℝ) * Real.exp (∑ d, normalLogPdf 0 1 (gamma m l d)))
          - Real.log (bank.p : ℝ) := by
        rw [Finset.sum_const, Finset.card_univ, Fintype.card_fin, nsmul_eq_mul]
    _ = ∑ d, normalLogPdf 0 1 (gamma m l d) := by
        rw [Real.log_mul (Nat.cast_ne_zero.mpr hp.ne') (Real.exp_ne_zero _),
          Real.log_exp]
        ring

/-- Witness for C7: the scenario's `p = 5` unit bank on a concrete module and
a concrete gamma — the VAMP branch value equals the non-VAMP branch value. -/
theorem vamp_unit_bank_equals_isotropic_witness :
    exampleVampModule.vprior = Option.some exampleBank ∧ 0 < exampleBank.p ∧
    negLogLikelihoodPrior exampleVampModule
        (fun _ _ _ => (0 : ℝ) : Fin 1 → Fin 1 → Fin 1 → ℝ) 0 =
      negLogLikelihoodPrior { exampleVampModule with vprior := Option.none }
        (fun _ _ _ => (0 : ℝ) : Fin 1 → Fin 1 → Fin 1 → ℝ) 0 :=
  ⟨rfl, Nat.succ_pos 4,
    vamp_unit_bank_equals_isotropic exampleVampModule exampleBank rfl
      (Nat.succ_pos 4) (fun _ _ _ => rfl) (fun _ _ _ => rfl)
      (fun _ _ _ => (0 : ℝ) : Fin 1 → Fin 1 → Fin 1 → ℝ) 0⟩

/-! ## The frozen reference decoder (`HSTDeconv.__init__`, lines 54–75)

The constructor builds the decoder networks (torch parameters are created with
gradient tracking enabled), loads the frozen single-cell bundle
(`load_state_dict`), and immediately sets `requires_grad = False` on every
parameter of `self.decoder` and `self.px_decoder` (lines 69–74).  None of the
core operations (`generative`, `loss`, `get_proportions`, `get_gamma`,
`get_ct_specific_expression`) contains an assignment to `requires_grad` or to
these weights — their effect on this portion of the state, read off the
source, is read-only. -/

/-- A torch parameter tensor: a weight value together with its
`requires_grad` flag. -/
structure ParamTensor where
  value : List ℝ
  requires_grad : Bool

/-- `param.requires_grad = False`. -/
def ParamTensor.disableGrad (p : ParamTensor) : ParamTensor :=
  ⟨p.value, false⟩

/-- `load_state_dict(w)`: overwrite the weight value, leaving the gradient
flag untouched. -/
def ParamTensor.loadValue (p : ParamTensor) (w : List ℝ) : ParamTensor :=
  ⟨w, p.requires_grad⟩

/-- The frozen portion of the module state: the `FCLayers` decoder parameters
and the softplus projection (`px_decoder`) parameters. -/
structure FrozenDecoderState where
  decoder_params : ParamTensor
  px_decoder_params : ParamTensor

/-- Lines 54–74 of `__init__`: construct both networks (fresh parameters have
`requires_grad = True`), load `sc_state_dict[0]` and `sc_state_dict[1]`, then
disable gradient tracking on every parameter of both. -/
def initFrozenDecoder (sd0 sd1 : List ℝ) : FrozenDecoderState :=
  let decoder0 : ParamTensor := ⟨[], true⟩
  let px0 : ParamTensor := ⟨[], true⟩
  let decoder1 := decoder0.loadValue sd0
  let decoder2 := decoder1.disableGrad
  let px1 := px0.loadValue sd1
  let px2 := px1.disableGrad
  ⟨decoder2, px2⟩

/-- The core operations of the module, as state transformers over the frozen
decoder portion. -/
inductive CoreOp where
  | generativeOp
  | lossOp
  | getProportionsOp
  | getGammaOp
  | getCtSpecificExpressionOp

/-- Effect of each core operation on the frozen decoder state.  `generative`
and `get_ct_specific_expression` call `self.decoder` / `self.px_decoder`
(reads); `loss` reads `self.eta` and the generative outputs; the accessors
read the parameter store or the encoders.  No operation assigns to
`requires_grad` or to the loaded weights, so each returns the state it was
given, field by field. -/
def CoreOp.applyTo : CoreOp → FrozenDecoderState → FrozenDecoderState
  | .generativeOp, s => ⟨s.decoder_params, s.px_decoder_params⟩
  | .lossOp, s => ⟨s.decoder_params, s.px_decoder_params⟩
  | .getProportionsOp, s => ⟨s.decoder_params, s.px_decoder_params⟩
  | .getGammaOp, s => ⟨s.decoder_params, s.px_decoder_params⟩
  | .getCtSpecificExpressionOp, s => ⟨s.decoder_params, s.px_decoder_params⟩

/-- Each core operation leaves the frozen decoder state unchanged. -/
theorem CoreOp.applyTo_id (op : CoreOp) (s : FrozenDecoderState) :
    op.applyTo s = s := by
  cases op <;> rfl

/-- **C8.** Immediately after construction the frozen reference decoder's
parameters (both decoder stages) carry `requires_grad = false` and hold
exactly the loaded bundle; and after any sequence of core operations
(`generative`, `loss`, or any accessor) the flags are still `false` and the
weights are still the loaded bundle — no core operation re-enables gradient
tracking or modifies the frozen weights. -/
theorem frozen_decoder_grad_disabled_permanently (sd0 sd1 : List ℝ)
    (ops : List CoreOp) :
    ((initFrozenDecoder sd0 sd1).decoder_params.requires_grad = false ∧
     (initFrozenDecoder sd0 sd1).px_decoder_params.requires_grad = false ∧
     (initFrozenDecoder sd0 sd1).decoder_params.value = sd0 ∧
     (initFrozenDecoder sd0 sd1).px_decoder_params.value = sd1) ∧
    ops.foldl (fun s op => op.applyTo s) (initFrozenDecoder sd0 sd1) =
      initFrozenDecoder sd0 sd1 := by
  refine ⟨⟨rfl, rfl, rfl, rfl⟩, ?_⟩
  induction ops with
  | nil => rfl
  | cons op rest ih =>
    show List.foldl (fun s op => op.applyTo s)
      (op.applyTo (initFrozenDecoder sd0 sd1)) rest = initFrozenDecoder sd0 sd1
    rw [CoreOp.applyTo_id]
    exact ih
